import Mathlib

/-!
Verification development for the Merton distressed-signals repository.

The repository ships a Next.js frontend (watchlist hook, API client with the
backend's output types) together with a README that documents the numerical
core (Merton solver, credit metrics, signal classifier, sensitivity engine)
and reproduces its central formulas as Python snippets.  The backend module
itself is not part of the available sources, so the numerical core is
modelled here from the specification and the README formulas, while the
frontend pieces (watchlist hook, API output types) are embedded directly
from their TypeScript sources.

Real-valued quantities are modelled over `ℝ`; the standard normal CDF used
by the backend (scipy `norm.cdf`) is modelled as the integral of the
Gaussian density from Mathlib.
-/

open MeasureTheory ProbabilityTheory Set

/-- The standard normal density, specialised from Mathlib's Gaussian pdf.
Models `scipy.stats.norm.pdf`. -/
noncomputable def stdNormalPdf (t : ℝ) : ℝ := gaussianPDFReal 0 1 t

/-- The standard normal cumulative distribution function, modelling
`scipy.stats.norm.cdf` used throughout the backend (README, Step 3). -/
noncomputable def normCdf (x : ℝ) : ℝ := ∫ t in Iic x, stdNormalPdf t

lemma stdNormalPdf_pos (t : ℝ) : 0 < stdNormalPdf t :=
  gaussianPDFReal_pos 0 1 t one_ne_zero

lemma stdNormalPdf_integrable : Integrable stdNormalPdf :=
  integrable_gaussianPDFReal 0 1

lemma stdNormalPdf_total : ∫ t, stdNormalPdf t = 1 :=
  integral_gaussianPDFReal_eq_one 0 one_ne_zero

lemma stdNormalPdf_neg (t : ℝ) : stdNormalPdf (-t) = stdNormalPdf t := by
  simp [stdNormalPdf, gaussianPDFReal, neg_sq]

lemma normCdf_nonneg (x : ℝ) : 0 ≤ normCdf x :=
  setIntegral_nonneg measurableSet_Iic fun t _ => (stdNormalPdf_pos t).le

lemma normCdf_le_one (x : ℝ) : normCdf x ≤ 1 := by
  have h := setIntegral_le_integral (s := Iic x) stdNormalPdf_integrable
    (Filter.Eventually.of_forall fun t => (stdNormalPdf_pos t).le)
  simpa [normCdf, stdNormalPdf_total] using h

lemma normCdf_mono {x y : ℝ} (h : x ≤ y) : normCdf x ≤ normCdf y := by
  refine setIntegral_mono_set stdNormalPdf_integrable.integrableOn
    (Filter.Eventually.of_forall fun t => (stdNormalPdf_pos t).le) ?_
  exact HasSubset.Subset.eventuallyLE (Iic_subset_Iic.mpr h)

lemma normCdf_pos (x : ℝ) : 0 < normCdf x := by
  have hsupp : Function.support stdNormalPdf = univ :=
    Set.eq_univ_of_forall fun t => Function.mem_support.mpr (stdNormalPdf_pos t).ne'
  have h := (setIntegral_pos_iff_support_of_nonneg_ae
    (Filter.Eventually.of_forall fun t => (stdNormalPdf_pos t).le)
    stdNormalPdf_integrable.integrableOn (s := Iic x))
  refine h.mpr ?_
  rw [hsupp, univ_inter, Real.volume_Iic]
  exact ENNReal.zero_lt_top

lemma normCdf_add_Ioi (x : ℝ) : normCdf x + ∫ t in Ioi x, stdNormalPdf t = 1 := by
  have h := integral_add_compl (measurableSet_Iic (a := x)) stdNormalPdf_integrable
  rw [compl_Iic] at h
  rw [normCdf, h, stdNormalPdf_total]

lemma normCdf_lt_one (x : ℝ) : normCdf x < 1 := by
  have hpos : 0 < ∫ t in Ioi x, stdNormalPdf t := by
    have hsupp : Function.support stdNormalPdf = univ :=
      Set.eq_univ_of_forall fun t => Function.mem_support.mpr (stdNormalPdf_pos t).ne'
    refine (setIntegral_pos_iff_support_of_nonneg_ae
      (Filter.Eventually.of_forall fun t => (stdNormalPdf_pos t).le)
      stdNormalPdf_integrable.integrableOn (s := Ioi x)).mpr ?_
    rw [hsupp, univ_inter, Real.volume_Ioi]
    exact ENNReal.zero_lt_top
  have h := normCdf_add_Ioi x
  linarith

lemma normCdf_neg (x : ℝ) : normCdf (-x) = 1 - normCdf x := by
  have heven : ∀ t : ℝ, stdNormalPdf t = stdNormalPdf (-t) :=
    fun t => (stdNormalPdf_neg t).symm
  have h1 : normCdf (-x) = ∫ t in Iic (-x), stdNormalPdf (-t) := by
    unfold normCdf
    exact setIntegral_congr_fun measurableSet_Iic fun t _ => heven t
  have h2 : (∫ t in Iic (-x), stdNormalPdf (-t)) = ∫ t in Ioi x, stdNormalPdf t := by
    have := integral_comp_neg_Iic (-x) stdNormalPdf
    simpa using this
  have h3 := normCdf_add_Ioi x
  rw [h1, h2]
  linarith

lemma normCdf_zero : normCdf 0 = 1 / 2 := by
  have h := normCdf_neg 0
  rw [neg_zero] at h
  linarith

lemma normCdf_continuous : Continuous normCdf := by
  have hrep : ∀ x : ℝ, normCdf x = normCdf 0 + ∫ t in (0:ℝ)..x, stdNormalPdf t := by
    intro x
    have h := intervalIntegral.integral_Iic_sub_Iic (f := stdNormalPdf) (μ := volume)
      stdNormalPdf_integrable.integrableOn stdNormalPdf_integrable.integrableOn
      (a := 0) (b := x)
    unfold normCdf
    linarith [h]
  have hcont : Continuous fun x : ℝ => normCdf 0 + ∫ t in (0:ℝ)..x, stdNormalPdf t :=
    continuous_const.add (stdNormalPdf_integrable.continuous_primitive 0)
  exact (funext hrep : normCdf = _) ▸ hcont

/-- Modelled from the spec (§4.1): Black-Scholes-Merton auxiliary quantity
`d1(V, D, r, sigma_V, T) = (ln(V/D) + (r + sigma_V^2/2) T) / (sigma_V sqrt T)`. -/
noncomputable def d1 (V D r sigma_V T : ℝ) : ℝ :=
  (Real.log (V / D) + (r + sigma_V ^ 2 / 2) * T) / (sigma_V * Real.sqrt T)

/-- Modelled from the spec (§4.1): `d2 = d1 − sigma_V sqrt T`. -/
noncomputable def d2 (V D r sigma_V T : ℝ) : ℝ :=
  d1 V D r sigma_V T - sigma_V * Real.sqrt T

/-- Modelled from the spec (§4.1): Black-Scholes-Merton equity value
`E = V Φ(d1) − D e^{−rT} Φ(d2)` (README core equations). -/
noncomputable def equityValue (V D r sigma_V T : ℝ) : ℝ :=
  V * normCdf (d1 V D r sigma_V T) -
    D * Real.exp (-(r * T)) * normCdf (d2 V D r sigma_V T)

/-- Modelled from the spec (§4.1): volatility linkage rearranged,
`sigma_E implied = sigma_V V Φ(d1) / E`. -/
noncomputable def equityVolImplied (V D r sigma_V T E : ℝ) : ℝ :=
  sigma_V * V * normCdf (d1 V D r sigma_V T) / E

lemma equityValue_le_self {V D : ℝ} (r sigma_V T : ℝ) (hV : 0 ≤ V) (hD : 0 ≤ D) :
    equityValue V D r sigma_V T ≤ V := by
  unfold equityValue
  have h1 := normCdf_le_one (d1 V D r sigma_V T)
  have h2 := normCdf_nonneg (d2 V D r sigma_V T)
  have h3 := Real.exp_pos (-(r * T))
  nlinarith [mul_le_of_le_one_right hV h1,
    mul_nonneg (mul_nonneg hD h3.le) h2]

lemma equityValue_lt_self {V D : ℝ} (r sigma_V T : ℝ) (hV : 0 ≤ V) (hD : 0 < D) :
    equityValue V D r sigma_V T < V := by
  unfold equityValue
  have h1 := normCdf_le_one (d1 V D r sigma_V T)
  have h2 := normCdf_pos (d2 V D r sigma_V T)
  have h3 := Real.exp_pos (-(r * T))
  nlinarith [mul_le_of_le_one_right hV h1, mul_pos (mul_pos hD h3) h2]

lemma equityValue_ge_lower {V D sigma_V T : ℝ} (r : ℝ) (hV : 0 ≤ V)
    (hσ : 0 ≤ sigma_V) :
    (V - D * Real.exp (-(r * T))) * normCdf (d2 V D r sigma_V T) ≤
      equityValue V D r sigma_V T := by
  unfold equityValue
  have hd : d2 V D r sigma_V T ≤ d1 V D r sigma_V T := by
    unfold d2
    have : 0 ≤ sigma_V * Real.sqrt T := mul_nonneg hσ (Real.sqrt_nonneg T)
    linarith
  have hmono := normCdf_mono hd
  have h2 := normCdf_nonneg (d2 V D r sigma_V T)
  nlinarith [mul_le_mul_of_nonneg_left hmono hV]

lemma equityValue_continuousOn {D sigma_V T : ℝ} (r : ℝ) (hD : 0 < D) :
    ContinuousOn (fun V => equityValue V D r sigma_V T) (Ioi 0) := by
  have hlog : ContinuousOn (fun V : ℝ => Real.log (V / D)) (Ioi 0) := by
    refine Real.continuousOn_log.comp ((continuous_id.div_const D).continuousOn) ?_
    intro V hV
    have : V / D ≠ 0 := ne_of_gt (div_pos hV hD)
    simpa using this
  have hd1 : ContinuousOn (fun V => d1 V D r sigma_V T) (Ioi 0) := by
    unfold d1
    exact (hlog.add continuousOn_const).div_const _
  have hd2 : ContinuousOn (fun V => d2 V D r sigma_V T) (Ioi 0) := by
    unfold d2
    exact hd1.sub continuousOn_const
  unfold equityValue
  exact ((continuous_id.continuousOn).mul (normCdf_continuous.comp_continuousOn hd1)).sub
    (continuousOn_const.mul (normCdf_continuous.comp_continuousOn hd2))

/-- Existence of a solution of the equity-value equation `R1 = 0` in `V` for a
fixed asset volatility: the ingredient behind the floor stage's re-solve
(§4.2 step 4).  Proven by the intermediate value theorem. -/
lemma exists_equityValue_eq (D r sigma_V T Etgt : ℝ) (hD : 0 < D) (hσ : 0 < sigma_V)
    (hT : 0 < T) (hE : 0 < Etgt) :
    ∃ Vs, 0 < Vs ∧ equityValue Vs D r sigma_V T = Etgt := by
  set b := max (D * Real.exp ((sigma_V ^ 2 / 2 - r) * T))
    (D * Real.exp (-(r * T)) + 2 * Etgt + 1) with hbdef
  have hDexp : 0 ≤ D * Real.exp (-(r * T)) :=
    mul_nonneg hD.le (Real.exp_pos _).le
  have hEb : Etgt ≤ b := by
    have h := le_max_right (D * Real.exp ((sigma_V ^ 2 / 2 - r) * T))
      (D * Real.exp (-(r * T)) + 2 * Etgt + 1)
    linarith
  have hb0 : 0 < b := lt_of_lt_of_le hE hEb
  have hflow : equityValue Etgt D r sigma_V T ≤ Etgt :=
    equityValue_le_self r sigma_V T hE.le hD.le
  have hd2b : 0 ≤ d2 b D r sigma_V T := by
    have hbd : D * Real.exp ((sigma_V ^ 2 / 2 - r) * T) ≤ b :=
      le_max_left _ _
    have hquot : Real.exp ((sigma_V ^ 2 / 2 - r) * T) ≤ b / D :=
      (le_div_iff₀ hD).mpr (by linarith [mul_comm D (Real.exp ((sigma_V ^ 2 / 2 - r) * T))])
    have hlog : (sigma_V ^ 2 / 2 - r) * T ≤ Real.log (b / D) := by
      rw [Real.le_log_iff_exp_le (div_pos hb0 hD)]
      exact hquot
    have hnum : 0 ≤ Real.log (b / D) + (r - sigma_V ^ 2 / 2) * T := by nlinarith
    have hden : 0 < sigma_V * Real.sqrt T :=
      mul_pos hσ (Real.sqrt_pos.mpr hT)
    have hform : d2 b D r sigma_V T =
        (Real.log (b / D) + (r - sigma_V ^ 2 / 2) * T) / (sigma_V * Real.sqrt T) := by
      unfold d2 d1
      have hs : Real.sqrt T * Real.sqrt T = T := Real.mul_self_sqrt hT.le
      field_simp
      ring_nf
      nlinarith [hs]
    rw [hform]
    exact div_nonneg hnum hden.le
  have hfhigh : Etgt ≤ equityValue b D r sigma_V T := by
    have hlb := equityValue_ge_lower (V := b) (D := D) (T := T) r hb0.le hσ.le
    have hΦ : (1 : ℝ) / 2 ≤ normCdf (d2 b D r sigma_V T) := by
      have := normCdf_mono hd2b
      rw [normCdf_zero] at this
      exact this
    have hbge : D * Real.exp (-(r * T)) + 2 * Etgt + 1 ≤ b := le_max_right _ _
    have hgap : 2 * Etgt + 1 ≤ b - D * Real.exp (-(r * T)) := by linarith
    have hg0 : 0 ≤ b - D * Real.exp (-(r * T)) := by linarith
    have : (2 * Etgt + 1) * (1 / 2) ≤
        (b - D * Real.exp (-(r * T))) * normCdf (d2 b D r sigma_V T) := by
      have hΦpos := normCdf_pos (d2 b D r sigma_V T)
      nlinarith
    nlinarith
  have hcont : ContinuousOn (fun V => equityValue V D r sigma_V T) (Icc Etgt b) := by
    refine (equityValue_continuousOn r hD).mono ?_
    intro V hV
    exact lt_of_lt_of_le hE hV.1
  have hIVT := intermediate_value_Icc hEb hcont
  have hmem : Etgt ∈ Icc (equityValue Etgt D r sigma_V T) (equityValue b D r sigma_V T) :=
    ⟨hflow, hfhigh⟩
  obtain ⟨Vs, hVs, hfVs⟩ := hIVT hmem
  exact ⟨Vs, lt_of_lt_of_le hE hVs.1, hfVs⟩

/-- The fixed recovery-rate configuration constant (README Step 3:
`recovery_rate = 0.4`, Moody's historical average). -/
noncomputable def recoveryRate : ℝ := 0.4

/-- Distance to default, modelled from the README code (Step 3):
`DD = (ln(V/D) + (r − 0.5 sigma_V^2) T) / (sigma_V sqrt T)`, with the
risk-free rate `r` as drift. -/
noncomputable def distanceToDefault (V D r sigma_V T : ℝ) : ℝ :=
  (Real.log (V / D) + (r - sigma_V ^ 2 / 2) * T) / (sigma_V * Real.sqrt T)

/-- One-year default probability, modelled from the README code (Step 3):
`PD = norm.cdf(-DD)`. -/
noncomputable def defaultProbability (V D r sigma_V T : ℝ) : ℝ :=
  normCdf (-(distanceToDefault V D r sigma_V T))

/-- The `d2` recomputed by the spread code (README Step 3); its formula is
exactly the distance-to-default formula. -/
noncomputable def spreadD2 (V D r sigma_V T : ℝ) : ℝ :=
  (Real.log (V / D) + (r - sigma_V ^ 2 / 2) * T) / (sigma_V * Real.sqrt T)

/-- The `d1` recomputed by the spread code (README Step 3):
`d1 = d2 + sigma_V sqrt T`. -/
noncomputable def spreadD1 (V D r sigma_V T : ℝ) : ℝ :=
  spreadD2 V D r sigma_V T + sigma_V * Real.sqrt T

/-- Theoretical credit spread, modelled from the README code (Step 3):
`spread = −(1/T) ln(Φ(d2) + (V/D) Φ(−d1) (1 − recovery))`. -/
noncomputable def creditSpread (V D r sigma_V T recovery : ℝ) : ℝ :=
  -(1 / T) * Real.log (normCdf (spreadD2 V D r sigma_V T) +
    V / D * normCdf (-(spreadD1 V D r sigma_V T)) * (1 - recovery))

/-- Spread in basis points: `spread_bps = spread × 10000` (README Step 3). -/
noncomputable def spreadBps (V D r sigma_V T recovery : ℝ) : ℝ :=
  creditSpread V D r sigma_V T recovery * 10000

/-- The derived credit metrics record (spec §3 `CreditMetrics`). -/
structure CreditMetrics where
  DD : ℝ
  PD : ℝ
  spread_bps : ℝ

/-- The credit metric calculator (spec §4.3), assembling `DD`, `PD = Φ(−DD)`
and the recovery-adjusted theoretical spread from a solved `(V, sigma_V)`. -/
noncomputable def computeCreditMetrics (V D r sigma_V T recovery : ℝ) : CreditMetrics :=
  { DD := distanceToDefault V D r sigma_V T
    PD := defaultProbability V D r sigma_V T
    spread_bps := spreadBps V D r sigma_V T recovery }

/-- The spread seen as a function of the default probability, with the
leverage/recovery term `q = (V/D) Φ(−d1)` held fixed: the reduced form in
which the spec's monotonicity-in-`PD` statement lives. -/
noncomputable def spreadOfPD (T recovery q pd : ℝ) : ℝ :=
  -(1 / T) * Real.log ((1 - pd) + q * (1 - recovery))

/-- Input data for one analysis (spec §3 `FirmFinancials`). -/
structure FirmFinancials where
  E : ℝ
  D : ℝ
  sigma_E : ℝ
  r : ℝ
  T : ℝ

/-- Tag identifying which solver stage converged (spec §4.2). -/
inductive SolverMethod
  | primary
  | fallback
deriving DecidableEq

/-- Output of the implied-asset solver (spec §3 `MertonSolution`). -/
structure MertonSolution where
  V : ℝ
  sigma_V : ℝ
  leverage : ℝ
  method : SolverMethod
  converged : Bool

/-- Diagnostic payload of a solver failure (spec §4.2 step 5): the best
achieved residual and the attempted seed schedule. -/
structure ConvergenceError where
  best_residual : ℝ
  seed_schedule : List (ℝ × ℝ)

/-- Modelled from the spec (§4.2): residual of the equity-value equation,
`R1(V, sigma_V) = V Φ(d1) − D e^{−rT} Φ(d2) − E`. -/
noncomputable def R1 (f : FirmFinancials) (V sigma_V : ℝ) : ℝ :=
  equityValue V f.D f.r sigma_V f.T - f.E

/-- Modelled from the spec (§4.2): residual of the volatility linkage,
`R2(V, sigma_V) = sigma_V V Φ(d1) − sigma_E E`. -/
noncomputable def R2 (f : FirmFinancials) (V sigma_V : ℝ) : ℝ :=
  sigma_V * V * normCdf (d1 V f.D f.r sigma_V f.T) - f.sigma_E * f.E

/-- Solver acceptance tolerance (spec §4.2: absolute tolerance `1e-6`
relative to `E`). -/
noncomputable def solverTol : ℝ := 1 / 1000000

/-- Modelled from the spec (§4.2 step 2): a candidate point is accepted when
both residuals are within tolerance and the constraints `V > E`,
`0 < sigma_V < sigma_E` hold. -/
def accepts (f : FirmFinancials) (p : ℝ × ℝ) : Prop :=
  |R1 f p.1 p.2| ≤ solverTol * f.E ∧ |R2 f p.1 p.2| ≤ solverTol * f.E ∧
    f.E < p.1 ∧ 0 < p.2 ∧ p.2 < f.sigma_E

/-- Modelled from the spec (§4.2 step 1): seed schedule `V0 = E + D`,
`sigma_V0 = sigma_E E/(E+D)` perturbed by the multiplicative factors. -/
noncomputable def initialSeeds (f : FirmFinancials) : List (ℝ × ℝ) :=
  [(1 : ℝ) / 2, 1, 3 / 2].map fun c =>
    (f.E + f.D, c * (f.sigma_E * f.E / (f.E + f.D)))

open Classical in
/-- First accepted candidate among the points returned by a solver stage. -/
noncomputable def firstAccepted (f : FirmFinancials) :
    List (ℝ × ℝ) → Option (ℝ × ℝ)
  | [] => none
  | p :: ps => if accepts f p then some p else firstAccepted f ps

open Classical in
/-- Modelled from the spec (§4.2 step 4): the risk-aware volatility floor.
If the firm is highly levered (`D/(E+D) > 0.7`) and the solved `sigma_V`
falls below `0.15`, clamp `sigma_V` to `0.15` and replace `V` by the value
`reV` obtained by re-solving `R1 = 0` at the floored volatility. -/
noncomputable def applyFloor (f : FirmFinancials) (m : SolverMethod) (reV : ℝ)
    (p : ℝ × ℝ) : MertonSolution :=
  if 0.7 < f.D / (f.E + f.D) ∧ p.2 < 0.15 then
    { V := reV, sigma_V := 0.15, leverage := f.D / reV, method := m, converged := true }
  else
    { V := p.1, sigma_V := p.2, leverage := f.D / p.1, method := m, converged := true }

/-- Residual magnitude of one candidate point. -/
noncomputable def residualNorm (f : FirmFinancials) (p : ℝ × ℝ) : ℝ :=
  max |R1 f p.1 p.2| |R2 f p.1 p.2|

/-- Best achieved residual across a seed schedule (diagnostic payload). -/
noncomputable def bestResidual (f : FirmFinancials) (seeds : List (ℝ × ℝ)) : ℝ :=
  (seeds.map (residualNorm f)).foldr min 0

/-- Modelled from the spec (§4.2): skeleton of the multi-start hybrid solver.
The numerical iterations of the two stages (Levenberg-Marquardt-class, then
bounded quasi-Newton) are not part of the available sources; each stage is
abstracted by the list of candidate points it produced, to which the spec's
acceptance test, floor and failure logic are applied in order. -/
noncomputable def runSolver (f : FirmFinancials)
    (primaryCands fallbackCands : List (ℝ × ℝ)) (reV : ℝ) :
    Except ConvergenceError MertonSolution :=
  match firstAccepted f primaryCands with
  | some p => .ok (applyFloor f .primary reV p)
  | none =>
    match firstAccepted f fallbackCands with
    | some p => .ok (applyFloor f .fallback reV p)
    | none =>
      .error { best_residual := bestResidual f (primaryCands ++ fallbackCands)
               seed_schedule := primaryCands ++ fallbackCands }

lemma firstAccepted_some {f : FirmFinancials} {l : List (ℝ × ℝ)} {p : ℝ × ℝ}
    (h : firstAccepted f l = some p) : accepts f p ∧ p ∈ l := by
  induction l with
  | nil => simp [firstAccepted] at h
  | cons q qs ih =>
    rw [firstAccepted] at h
    by_cases hq : accepts f q
    · rw [if_pos hq] at h
      obtain rfl : q = p := by injection h
      exact ⟨hq, List.mem_cons_self q qs⟩
    · rw [if_neg hq] at h
      obtain ⟨ha, hm⟩ := ih h
      exact ⟨ha, List.mem_cons_of_mem q hm⟩

/-- One row of the volatility-sensitivity table (spec §3 `SensitivityReport`,
`src` API type `SensitivityResponse.volatility_sensitivity`): the shock, the
shocked equity volatility, and either the recomputed spread or the recorded
solver failure for that scenario. -/
structure ScenarioRecord where
  shock_pct : ℚ
  shocked_sigma_E : ℝ
  result : Except ConvergenceError ℝ

/-- Modelled from the spec (§4.5): the fixed volatility shock grid, in
percent. -/
def shockGrid : List ℚ := [-20, -10, -5, 0, 5, 10, 20]

/-- Modelled from the spec (§4.5): shocked firm inputs,
`sigma_E' = sigma_E (1 + shock/100)`. -/
noncomputable def shockFirm (f : FirmFinancials) (s : ℚ) : FirmFinancials :=
  { f with sigma_E := f.sigma_E * (1 + (s : ℝ) / 100) }

/-- Modelled from the spec (§4.5): the volatility-sensitivity engine.  The
solver-plus-metrics pipeline is abstracted by `solve`; every grid scenario is
recorded, a failing scenario as its `ConvergenceError`, never aborting the
remaining scenarios. -/
noncomputable def volatilitySensitivity
    (solve : FirmFinancials → Except ConvergenceError ℝ)
    (f : FirmFinancials) (grid : List ℚ) : List ScenarioRecord :=
  grid.map fun s =>
    { shock_pct := s
      shocked_sigma_E := (shockFirm f s).sigma_E
      result := solve (shockFirm f s) }

/-- Enumerated trading signal (spec §3 `SignalResult`). -/
inductive TradingSignal
  | STRONG_SHORT
  | MODERATE_SHORT
  | NEUTRAL
  | MODERATE_LONG
  | STRONG_LONG
deriving DecidableEq

/-- Named threshold configuration (spec §4.4: thresholds are configuration
constants): the strong-signal threshold in basis points. -/
def strongThresholdBps : ℚ := 150

/-- Named threshold configuration: the moderate-signal threshold in basis
points. -/
def moderateThresholdBps : ℚ := 75

/-- Named strength table (spec §4.4, README Step 4: star counts per signal). -/
def signalStrengthOf : TradingSignal → ℕ
  | .STRONG_SHORT => 5
  | .MODERATE_SHORT => 3
  | .NEUTRAL => 1
  | .MODERATE_LONG => 3
  | .STRONG_LONG => 5

/-- Modelled from the spec (§4.4) and README (Step 4, lines 429-434): the
signal classifier, a pure total function of the two spreads, with
`diff = theo − market` and the boundary behaviour fixed by the spec
(`diff = 75` exactly is NEUTRAL, the strong thresholds are strict). -/
def classifySignal (theo market : ℚ) : TradingSignal :=
  let diff := theo - market
  if strongThresholdBps < diff then .STRONG_SHORT
  else if moderateThresholdBps < diff then .MODERATE_SHORT
  else if -moderateThresholdBps ≤ diff then .NEUTRAL
  else if -strongThresholdBps ≤ diff then .MODERATE_LONG
  else .STRONG_LONG

/-- Output type of the signal generator, embedded from the TypeScript API
client (`SignalOutput` in the API declarations): note that the strength field
is a string. -/
structure SignalOutput where
  signal : String
  signal_strength : String
  spread_diff_bps : ℚ
deriving DecidableEq

/-- Display name of a signal (README Step 4). -/
def signalName : TradingSignal → String
  | .STRONG_SHORT => "STRONG SHORT"
  | .MODERATE_SHORT => "MODERATE SHORT"
  | .NEUTRAL => "NEUTRAL"
  | .MODERATE_LONG => "MODERATE LONG"
  | .STRONG_LONG => "STRONG LONG"

/-- Star-string rendering of a strength (README Step 4: `★` to `★★★★★`,
rendered verbatim by the frontend `SignalCard`). -/
def starString (n : ℕ) : String :=
  String.mk (List.replicate n '★')

/-- Modelled from the spec (§4.4) and the API declarations: the signal
generator assembling the `SignalOutput` payload. -/
def generateSignal (theo market : ℚ) : SignalOutput :=
  let s := classifySignal theo market
  { signal := signalName s
    signal_strength := starString (signalStrengthOf s)
    spread_diff_bps := theo - market }

/-- Whitespace test for the JS `trim` model (space, tab, newline, carriage
return). -/
def isWsChar (c : Char) : Bool :=
  decide (c.toNat = 32 ∨ c.toNat = 9 ∨ c.toNat = 10 ∨ c.toNat = 13)

/-- ASCII upper-casing of one character, modelling JS `toUpperCase` on the
ticker alphabet (`useWatchlist.ts` normalises tickers with it). -/
def upperChar (c : Char) : Char :=
  if 97 ≤ c.toNat ∧ c.toNat ≤ 122 then Char.ofNat (c.toNat - 32) else c

/-- Strings are modelled as character lists; `trim` drops leading and
trailing whitespace (JS `String.prototype.trim`). -/
def trimStr (l : List Char) : List Char :=
  (l.rdropWhile isWsChar).dropWhile isWsChar

/-- JS `String.prototype.toUpperCase`, character-wise. -/
def toUpperStr (l : List Char) : List Char :=
  l.map upperChar

/-- The normalisation applied by `addTicker`:
`ticker.trim().toUpperCase()` (`useWatchlist.ts` line 38). -/
def normalizeTicker (t : List Char) : List Char :=
  toUpperStr (trimStr t)

/-- Embedded from `useWatchlist.ts` (lines 37-44): add a ticker if its
normalisation is non-empty and not already present; report whether it was
added. -/
def addTicker (t : List Char) (w : List (List Char)) :
    List (List Char) × Bool :=
  let u := normalizeTicker t
  if u ≠ [] ∧ u ∉ w then (w ++ [u], true) else (w, false)

/-- Embedded from `useWatchlist.ts` (lines 46-48): remove all entries equal
to the raw ticker argument. -/
def removeTicker (t : List Char) (w : List (List Char)) : List (List Char) :=
  w.filter fun e => e ≠ t

/-- One `useWatchlist` mutation. -/
inductive WatchlistOp
  | add (t : List Char)
  | remove (t : List Char)
  | clear

/-- Apply one operation to the watchlist state (`clearWatchlist` resets to
the empty list, `useWatchlist.ts` lines 50-52). -/
def applyOp (w : List (List Char)) : WatchlistOp → List (List Char)
  | .add t => (addTicker t w).1
  | .remove t => removeTicker t w
  | .clear => []

/-- State after a sequence of operations starting from the empty watchlist. -/
def applyOps (ops : List WatchlistOp) : List (List Char) :=
  ops.foldl applyOp ([] : List (List Char))

/-- An entry is normalised when it is both trimmed and upper-case. -/
def isNormalizedEntry (e : List Char) : Prop :=
  trimStr e = e ∧ toUpperStr e = e

lemma char_toNat_ofNat {n : ℕ} (h : n.isValidChar) : (Char.ofNat n).toNat = n := by
  rw [Char.ofNat, dif_pos h]
  rfl

lemma upperChar_toNat_of_lower {c : Char} (h : 97 ≤ c.toNat ∧ c.toNat ≤ 122) :
    (upperChar c).toNat = c.toNat - 32 := by
  have hv : (c.toNat - 32).isValidChar := Or.inl (by omega)
  rw [upperChar, if_pos h]
  exact char_toNat_ofNat hv

lemma upperChar_idem (c : Char) : upperChar (upperChar c) = upperChar c := by
  by_cases h : 97 ≤ c.toNat ∧ c.toNat ≤ 122
  · have ht := upperChar_toNat_of_lower h
    have hnot : ¬(97 ≤ (upperChar c).toNat ∧ (upperChar c).toNat ≤ 122) := by
      rw [ht]; omega
    rw [upperChar, if_neg hnot]
  · have hc : upperChar c = c := by rw [upperChar, if_neg h]
    rw [hc, hc]

lemma isWsChar_upperChar (c : Char) : isWsChar (upperChar c) = isWsChar c := by
  by_cases h : 97 ≤ c.toNat ∧ c.toNat ≤ 122
  · have ht := upperChar_toNat_of_lower h
    simp only [isWsChar, ht]
    rw [decide_eq_decide]
    omega
  · rw [upperChar, if_neg h]

lemma trimStr_idem (l : List Char) : trimStr (trimStr l) = trimStr l := by
  unfold trimStr
  set m := l.rdropWhile isWsChar with hm
  have hstep : List.rdropWhile isWsChar (m.dropWhile isWsChar) =
      m.dropWhile isWsChar := by
    rw [List.rdropWhile_eq_self_iff]
    intro hne
    obtain ⟨t, ht⟩ := List.dropWhile_suffix (l := m) isWsChar
    have hmne : m ≠ [] := by
      intro hmnil
      rw [hmnil] at hne
      simp at hne
    have h1 := List.getLast?_eq_getLast (m.dropWhile isWsChar) hne
    have h2 := List.getLast?_eq_getLast m hmne
    have hq : m.getLast? = (m.dropWhile isWsChar).getLast? := by
      conv_lhs => rw [← ht]
      rw [List.getLast?_append, h1, Option.or_some]
    have heq : (m.dropWhile isWsChar).getLast hne = m.getLast hmne :=
      (Option.some.inj (h2.symm.trans (hq.trans h1))).symm
    rw [heq]
    exact List.rdropWhile_last_not isWsChar l hmne
  rw [hstep, List.dropWhile_idempotent]

lemma trimStr_map_upper (l : List Char) :
    trimStr (l.map upperChar) = (trimStr l).map upperChar := by
  have hcomp : (isWsChar ∘ upperChar) = isWsChar := funext isWsChar_upperChar
  have hr : List.rdropWhile isWsChar (l.map upperChar) =
      (List.rdropWhile isWsChar l).map upperChar := by
    unfold List.rdropWhile
    rw [← List.map_reverse, List.dropWhile_map, hcomp, List.map_reverse]
  unfold trimStr
  rw [hr, List.dropWhile_map, hcomp]

lemma isNormalizedEntry_normalizeTicker (t : List Char) :
    isNormalizedEntry (normalizeTicker t) := by
  constructor
  · show trimStr (toUpperStr (trimStr t)) = toUpperStr (trimStr t)
    unfold toUpperStr
    rw [trimStr_map_upper, trimStr_idem]
  · show toUpperStr (toUpperStr (trimStr t)) = toUpperStr (trimStr t)
    unfold toUpperStr
    rw [List.map_map]
    exact List.map_congr_left fun c _ => upperChar_idem c

/-- The watchlist invariant: no duplicates and every entry normalised. -/
def WatchlistInv (w : List (List Char)) : Prop :=
  w.Nodup ∧ ∀ e ∈ w, isNormalizedEntry e

lemma watchlistInv_applyOp {w : List (List Char)} (hw : WatchlistInv w)
    (op : WatchlistOp) : WatchlistInv (applyOp w op) := by
  obtain ⟨hnd, hnorm⟩ := hw
  cases op with
  | add t =>
    show WatchlistInv (addTicker t w).1
    unfold addTicker
    by_cases hc : normalizeTicker t ≠ [] ∧ normalizeTicker t ∉ w
    · rw [if_pos hc]
      refine ⟨?_, ?_⟩
      · simp only [List.nodup_append, List.nodup_cons, List.not_mem_nil,
          not_false_iff, List.nodup_nil, and_true, true_and]
        constructor
        · exact hnd
        · intro e he hmem
          simp only [List.mem_singleton] at hmem
          exact hc.2 (hmem ▸ he)
      · intro e he
        rcases List.mem_append.mp he with h | h
        · exact hnorm e h
        · simp only [List.mem_singleton] at h
          exact h ▸ isNormalizedEntry_normalizeTicker t
    · rw [if_neg hc]
      exact ⟨hnd, hnorm⟩
  | remove t =>
    refine ⟨hnd.filter _, ?_⟩
    intro e he
    exact hnorm e (List.mem_of_mem_filter he)
  | clear =>
    exact ⟨List.nodup_nil, fun e he => absurd he (List.not_mem_nil e)⟩

lemma classifySignal_eq (theo market : ℚ) :
    classifySignal theo market =
      (if strongThresholdBps < theo - market then .STRONG_SHORT
       else if moderateThresholdBps < theo - market then .MODERATE_SHORT
       else if -moderateThresholdBps ≤ theo - market then .NEUTRAL
       else if -strongThresholdBps ≤ theo - market then .MODERATE_LONG
       else .STRONG_LONG) := rfl

/-- C1: the signal classifier is a pure total function of the two spreads
(modelled over exact rationals): with `diff = theo − market` it returns
STRONG_SHORT with strength 5 when `diff > 150`, MODERATE_SHORT with strength
3 when `75 < diff ≤ 150`, NEUTRAL with strength 1 when `|diff| ≤ 75`,
MODERATE_LONG with strength 3 when `−150 ≤ diff < −75`, and STRONG_LONG with
strength 5 when `diff < −150`; the boundary values `diff = 75`, `75.01` and
`−150.01` classify as NEUTRAL, MODERATE_SHORT and STRONG_LONG respectively,
and no input fails (the function is total by construction). -/
theorem classifier_spec (theo market : ℚ) :
    (150 < theo - market →
      classifySignal theo market = .STRONG_SHORT ∧
        signalStrengthOf (classifySignal theo market) = 5) ∧
    (75 < theo - market ∧ theo - market ≤ 150 →
      classifySignal theo market = .MODERATE_SHORT ∧
        signalStrengthOf (classifySignal theo market) = 3) ∧
    (|theo - market| ≤ 75 →
      classifySignal theo market = .NEUTRAL ∧
        signalStrengthOf (classifySignal theo market) = 1) ∧
    (-150 ≤ theo - market ∧ theo - market < -75 →
      classifySignal theo market = .MODERATE_LONG ∧
        signalStrengthOf (classifySignal theo market) = 3) ∧
    (theo - market < -150 →
      classifySignal theo market = .STRONG_LONG ∧
        signalStrengthOf (classifySignal theo market) = 5) ∧
    classifySignal 75 0 = .NEUTRAL ∧
    classifySignal (7501 / 100) 0 = .MODERATE_SHORT ∧
    classifySignal (-15001 / 100) 0 = .STRONG_LONG := by
  refine ⟨?_, ?_, ?_, ?_, ?_,
    by rw [classifySignal_eq]; norm_num [strongThresholdBps, moderateThresholdBps],
    by rw [classifySignal_eq]; norm_num [strongThresholdBps, moderateThresholdBps],
    by rw [classifySignal_eq]; norm_num [strongThresholdBps, moderateThresholdBps]⟩
  · intro h
    rw [classifySignal_eq]
    simp only [strongThresholdBps, moderateThresholdBps]
    rw [if_pos h]
    exact ⟨rfl, rfl⟩
  · rintro ⟨h1, h2⟩
    rw [classifySignal_eq]
    simp only [strongThresholdBps, moderateThresholdBps]
    rw [if_neg (by linarith), if_pos h1]
    exact ⟨rfl, rfl⟩
  · intro h
    obtain ⟨h1, h2⟩ := abs_le.mp h
    rw [classifySignal_eq]
    simp only [strongThresholdBps, moderateThresholdBps]
    rw [if_neg (by linarith), if_neg (by linarith), if_pos (by linarith)]
    exact ⟨rfl, rfl⟩
  · rintro ⟨h1, h2⟩
    rw [classifySignal_eq]
    simp only [strongThresholdBps, moderateThresholdBps]
    rw [if_neg (by linarith), if_neg (by linarith), if_neg (by linarith),
      if_pos (by linarith)]
    exact ⟨rfl, rfl⟩
  · intro h
    rw [classifySignal_eq]
    simp only [strongThresholdBps, moderateThresholdBps]
    rw [if_neg (by linarith), if_neg (by linarith), if_neg (by linarith),
      if_neg (by linarith)]
    exact ⟨rfl, rfl⟩

/-- Witness for C1: the classifier evaluated across the five regimes. -/
theorem classifier_spec_witness :
    (classifySignal 300 0 = .STRONG_SHORT ∧
      signalStrengthOf (classifySignal 300 0) = 5) ∧
    (classifySignal 100 0 = .MODERATE_SHORT ∧
      signalStrengthOf (classifySignal 100 0) = 3) ∧
    (classifySignal 0 0 = .NEUTRAL ∧
      signalStrengthOf (classifySignal 0 0) = 1) ∧
    (classifySignal (-100) 0 = .MODERATE_LONG ∧
      signalStrengthOf (classifySignal (-100) 0) = 3) ∧
    (classifySignal (-300) 0 = .STRONG_LONG ∧
      signalStrengthOf (classifySignal (-300) 0) = 5) :=
  ⟨(classifier_spec 300 0).1 (by norm_num),
   (classifier_spec 100 0).2.1 (by norm_num),
   (classifier_spec 0 0).2.2.1 (by norm_num),
   (classifier_spec (-100) 0).2.2.2.1 (by norm_num),
   (classifier_spec (-300) 0).2.2.2.2.1 (by norm_num)⟩

/-- C2: for every analysis, the computed credit metrics satisfy
`DD = (ln(V/D) + (r − sigma_V²/2) T) / (sigma_V √T)` — the risk-free rate
`r` as drift — and `PD = Φ(−DD)` exactly, `PD` being defined from `DD` with
no independent source. -/
theorem creditMetrics_dd_pd_spec (V D r sigma_V T recovery : ℝ) :
    (computeCreditMetrics V D r sigma_V T recovery).DD =
      (Real.log (V / D) + (r - sigma_V ^ 2 / 2) * T) / (sigma_V * Real.sqrt T) ∧
    (computeCreditMetrics V D r sigma_V T recovery).PD =
      normCdf (-(computeCreditMetrics V D r sigma_V T recovery).DD) :=
  ⟨rfl, rfl⟩

/-- Counterexample for C9: the strength carried by the signal payload is not
a numeric value between 1 and 5 — at `theo − market = 200` bps the
`signal_strength` field is the star string, not any of the numerals
`"1"`,…,`"5"` (the API declaration types it as a string and the README
renders it as stars). -/
theorem signal_strength_not_numeric :
    ¬ ((generateSignal 200 0).signal_strength = "1" ∨
       (generateSignal 200 0).signal_strength = "2" ∨
       (generateSignal 200 0).signal_strength = "3" ∨
       (generateSignal 200 0).signal_strength = "4" ∨
       (generateSignal 200 0).signal_strength = "5") := by
  have hcls : classifySignal 200 0 = .STRONG_SHORT := by
    rw [classifySignal_eq]
    norm_num [strongThresholdBps, moderateThresholdBps]
  have hstr : (generateSignal 200 0).signal_strength = "★★★★★" := by
    show starString (signalStrengthOf (classifySignal 200 0)) = "★★★★★"
    rw [hcls]
    rfl
  rw [hstr]
  decide

/-- C9 (amended): every `SignalOutput` carries the signed
`spread_diff_bps = theo − market`, the enumerated signal name, and a strength
rendered as a star string whose length is the ordinal strength 5, 3 or 1 of
the classifier table (so between 1 and 5), rather than a numeric field. -/
theorem signal_output_spec (theo market : ℚ) :
    (generateSignal theo market).spread_diff_bps = theo - market ∧
    (generateSignal theo market).signal = signalName (classifySignal theo market) ∧
    (generateSignal theo market).signal_strength =
      starString (signalStrengthOf (classifySignal theo market)) ∧
    (generateSignal theo market).signal_strength.length =
      signalStrengthOf (classifySignal theo market) ∧
    (signalStrengthOf (classifySignal theo market) = 5 ∨
      signalStrengthOf (classifySignal theo market) = 3 ∨
      signalStrengthOf (classifySignal theo market) = 1) ∧
    1 ≤ signalStrengthOf (classifySignal theo market) ∧
    signalStrengthOf (classifySignal theo market) ≤ 5 := by
  refine ⟨rfl, rfl, rfl, ?_, ?_, ?_, ?_⟩
  · show (starString (signalStrengthOf (classifySignal theo market))).length = _
    unfold starString
    simp [String.length]
  · cases classifySignal theo market <;> simp [signalStrengthOf]
  · cases classifySignal theo market <;> simp [signalStrengthOf]
  · cases classifySignal theo market <;> simp [signalStrengthOf]

lemma watchlistInv_foldl (ops : List WatchlistOp) :
    ∀ w, WatchlistInv w → WatchlistInv (ops.foldl applyOp w) := by
  induction ops with
  | nil => intro w hw; exact hw
  | cons op rest ih =>
    intro w hw
    exact ih _ (watchlistInv_applyOp hw op)

/-- C10: starting from the empty watchlist, any sequence of `useWatchlist`
operations leaves a duplicate-free list whose entries are all trimmed and
upper-case; `addTicker t` returns `false` and leaves the list unchanged
exactly when the trimmed upper-cased `t` is empty or already present; and
`removeTicker t` removes exactly the entries equal to `t`. -/
theorem watchlist_spec :
    (∀ ops : List WatchlistOp, (applyOps ops).Nodup ∧
      ∀ e ∈ applyOps ops, trimStr e = e ∧ toUpperStr e = e) ∧
    (∀ (t : List Char) (w : List (List Char)),
      ((addTicker t w).2 = false ∧ (addTicker t w).1 = w) ↔
        (normalizeTicker t = [] ∨ normalizeTicker t ∈ w)) ∧
    (∀ (t : List Char) (w : List (List Char)) (e : List Char),
      e ∈ removeTicker t w ↔ (e ∈ w ∧ e ≠ t)) := by
  refine ⟨?_, ?_, ?_⟩
  · intro ops
    have hbase : WatchlistInv ([] : List (List Char)) :=
      ⟨List.nodup_nil, fun e he => absurd he (List.not_mem_nil e)⟩
    have hinv : WatchlistInv (applyOps ops) := watchlistInv_foldl ops _ hbase
    exact ⟨hinv.1, hinv.2⟩
  · intro t w
    constructor
    · rintro ⟨hfalse, -⟩
      by_contra hcon
      push_neg at hcon
      have hc : normalizeTicker t ≠ [] ∧ normalizeTicker t ∉ w := hcon
      have htrue : (addTicker t w).2 = true := by
        simp only [addTicker]
        rw [if_pos hc]
      exact Bool.noConfusion (htrue.symm.trans hfalse)
    · intro h
      have hcond : ¬(normalizeTicker t ≠ [] ∧ normalizeTicker t ∉ w) := by
        rcases h with h | h
        · exact fun hc => hc.1 h
        · exact fun hc => hc.2 h
      constructor
      · show (addTicker t w).2 = false
        simp only [addTicker]
        rw [if_neg hcond]
      · show (addTicker t w).1 = w
        simp only [addTicker]
        rw [if_neg hcond]
  · intro t w e
    unfold removeTicker
    rw [List.mem_filter]
    simp

/-- Witness for C10: a concrete operation sequence and a concrete removal. -/
theorem watchlist_spec_witness :
    (applyOps ([WatchlistOp.add ([' ', 'a', 'b'] : List Char)])).Nodup ∧
    ((['A'] : List Char) ∈ removeTicker (['B'] : List Char)
        ([(['A'] : List Char), (['B'] : List Char)]) ↔
      ((['A'] : List Char) ∈ ([(['A'] : List Char), (['B'] : List Char)]) ∧
        (['A'] : List Char) ≠ ['B'])) :=
  ⟨(watchlist_spec.1 ([WatchlistOp.add ([' ', 'a', 'b'] : List Char)])).1,
   watchlist_spec.2.2 (['B'] : List Char)
     ([(['A'] : List Char), (['B'] : List Char)]) (['A'] : List Char)⟩

/-- C8: per-scenario partial-failure semantics of the sensitivity engine —
if the solver pipeline fails for one shock of the grid, that scenario is
recorded in the report as its failure while every scenario of the grid
(including all the others) still gets its own computed record, and the
report itself always covers the whole grid. -/
theorem sensitivity_partial_failure_spec
    (solve : FirmFinancials → Except ConvergenceError ℝ) (f : FirmFinancials)
    (grid : List ℚ) (s : ℚ) (e : ConvergenceError)
    (hs : s ∈ grid) (hfail : solve (shockFirm f s) = .error e) :
    (({ shock_pct := s, shocked_sigma_E := (shockFirm f s).sigma_E,
        result := .error e } : ScenarioRecord) ∈
      volatilitySensitivity solve f grid) ∧
    (volatilitySensitivity solve f grid).length = grid.length ∧
    ∀ s2 ∈ grid,
      (({ shock_pct := s2, shocked_sigma_E := (shockFirm f s2).sigma_E,
          result := solve (shockFirm f s2) } : ScenarioRecord) ∈
        volatilitySensitivity solve f grid) := by
  refine ⟨?_, ?_, ?_⟩
  · rw [← hfail]
    exact List.mem_map_of_mem _ hs
  · exact List.length_map _ _
  · intro s2 hs2
    exact List.mem_map_of_mem _ hs2

/-- Witness for C8: a pipeline that fails on every scenario still yields a
full report over the fixed shock grid, with the failing scenario recorded. -/
theorem sensitivity_partial_failure_witness :
    (({ shock_pct := 0,
        shocked_sigma_E := (shockFirm ⟨1, 1, 1, 0, 1⟩ 0).sigma_E,
        result := Except.error ⟨0, []⟩ } : ScenarioRecord) ∈
      volatilitySensitivity (fun _ => Except.error ⟨0, []⟩) ⟨1, 1, 1, 0, 1⟩
        shockGrid) ∧
    (volatilitySensitivity (fun _ => Except.error ⟨0, []⟩) ⟨1, 1, 1, 0, 1⟩
        shockGrid).length = shockGrid.length := by
  have h := sensitivity_partial_failure_spec (fun _ => Except.error ⟨0, []⟩)
    ⟨1, 1, 1, 0, 1⟩ shockGrid 0 ⟨0, []⟩ (by norm_num [shockGrid]) rfl
  exact ⟨h.1, h.2.1⟩

/-- Counterexample for C7: at `V = 1, D = 10, r = 0, T = 1` — all valid,
positive parameters of a deeply distressed firm — the distance to default is
strictly larger at `sigma_V = 2` than at `sigma_V = 1`, so `DD` is not
strictly decreasing in `sigma_V` over all valid parameters. -/
theorem dd_not_decreasing_counterexample :
    (computeCreditMetrics 1 10 0 1 1 recoveryRate).DD <
      (computeCreditMetrics 1 10 0 2 1 recoveryRate).DD := by
  show distanceToDefault 1 10 0 1 1 < distanceToDefault 1 10 0 2 1
  unfold distanceToDefault
  rw [Real.sqrt_one]
  have hlog : Real.log (1 / 10 : ℝ) = -Real.log 10 := by
    rw [one_div, Real.log_inv]
  have h10 : (1 : ℝ) < Real.log 10 := by
    rw [Real.lt_log_iff_exp_lt (by norm_num : (0:ℝ) < 10)]
    linarith [Real.exp_one_lt_d9]
  rw [hlog]
  norm_num
  linarith

lemma distanceToDefault_eq_sub (V D r : ℝ) {s T : ℝ} (hs : 0 < s) (hT : 0 < T) :
    distanceToDefault V D r s T =
      (Real.log (V / D) + r * T) / (s * Real.sqrt T) - s * Real.sqrt T / 2 := by
  have hsq : 0 < Real.sqrt T := Real.sqrt_pos.mpr hT
  have hTs : Real.sqrt T * Real.sqrt T = T := Real.mul_self_sqrt hT.le
  have h3 : s * Real.sqrt T * (s * Real.sqrt T) = s ^ 2 * T := by
    linear_combination (s ^ 2 : ℝ) * hTs
  have h1 : distanceToDefault V D r s T =
      (Real.log (V / D) + r * T - s ^ 2 * T / 2) / (s * Real.sqrt T) := by
    unfold distanceToDefault
    congr 1
    ring
  have h2 : s ^ 2 * T / 2 / (s * Real.sqrt T) = s * Real.sqrt T / 2 := by
    rw [div_div, div_eq_iff (by positivity : (2 * (s * Real.sqrt T) : ℝ) ≠ 0)]
    linear_combination -h3
  rw [h1, sub_div, h2]

/-- C7 (amended): `DD` is strictly decreasing in `sigma_V` on the
non-distressed region `ln(V/D) + rT ≥ 0` (the counterexample shows strictness
fails for deeply distressed parameters); the computed credit spread factors
exactly through the default probability as
`spread = −(1/T) ln((1 − PD) + q (1 − recovery))` with the leverage term
`q = (V/D) Φ(−d1)` held fixed; and in that reduced form the spread is
strictly increasing in `PD` holding recovery and `q` fixed, wherever the log
argument is positive. -/
theorem metrics_monotonicity_spec :
    (∀ V D r T s1 s2 : ℝ, 0 < T → 0 < s1 → s1 < s2 →
      0 ≤ Real.log (V / D) + r * T →
      distanceToDefault V D r s2 T < distanceToDefault V D r s1 T) ∧
    (∀ V D r sigma_V T recovery : ℝ,
      creditSpread V D r sigma_V T recovery =
        spreadOfPD T recovery (V / D * normCdf (-(spreadD1 V D r sigma_V T)))
          (defaultProbability V D r sigma_V T)) ∧
    (∀ T recovery q p1 p2 : ℝ, 0 < T → p1 < p2 →
      0 < 1 - p2 + q * (1 - recovery) →
      spreadOfPD T recovery q p1 < spreadOfPD T recovery q p2) := by
  refine ⟨?_, ?_, ?_⟩
  · intro V D r T s1 s2 hT hs1 h12 hL
    have hs2 : 0 < s2 := hs1.trans h12
    have hsq : 0 < Real.sqrt T := Real.sqrt_pos.mpr hT
    have hx : 0 < s1 * Real.sqrt T := mul_pos hs1 hsq
    have hy : 0 < s2 * Real.sqrt T := mul_pos hs2 hsq
    have hxy : s1 * Real.sqrt T < s2 * Real.sqrt T :=
      mul_lt_mul_of_pos_right h12 hsq
    rw [distanceToDefault_eq_sub V D r hs1 hT,
      distanceToDefault_eq_sub V D r hs2 hT]
    have hdiv : (Real.log (V / D) + r * T) / (s2 * Real.sqrt T) ≤
        (Real.log (V / D) + r * T) / (s1 * Real.sqrt T) := by
      rw [div_le_div_iff₀ hy hx]
      exact mul_le_mul_of_nonneg_left hxy.le hL
    linarith
  · intro V D r sigma_V T recovery
    unfold creditSpread spreadOfPD defaultProbability
    rw [normCdf_neg (distanceToDefault V D r sigma_V T)]
    have harg : (1 : ℝ) - (1 - normCdf (distanceToDefault V D r sigma_V T)) =
        normCdf (distanceToDefault V D r sigma_V T) := by ring
    rw [harg]
    rfl
  · intro T recovery q p1 p2 hT h12 hpos
    unfold spreadOfPD
    have harg : 1 - p2 + q * (1 - recovery) < 1 - p1 + q * (1 - recovery) := by
      linarith
    have hlog := Real.log_lt_log hpos harg
    have hTinv : 0 < 1 / T := by positivity
    nlinarith

/-- Witness for C7 at concrete parameters: a non-distressed decrease, the
spread-through-PD factorisation, and a concrete monotone step in `PD`. -/
theorem metrics_monotonicity_spec_witness :
    distanceToDefault 10 1 0 2 1 < distanceToDefault 10 1 0 1 1 ∧
    creditSpread 2 1 0 1 1 (2 / 5) =
      spreadOfPD 1 (2 / 5) (2 / 1 * normCdf (-(spreadD1 2 1 0 1 1)))
        (defaultProbability 2 1 0 1 1) ∧
    spreadOfPD 1 (2 / 5) 0 0 < spreadOfPD 1 (2 / 5) 0 (1 / 2) := by
  refine ⟨metrics_monotonicity_spec.1 10 1 0 1 1 2 (by norm_num) (by norm_num)
      (by norm_num) ?_,
    metrics_monotonicity_spec.2.1 2 1 0 1 1 (2 / 5),
    metrics_monotonicity_spec.2.2 1 (2 / 5) 0 0 (1 / 2) (by norm_num)
      (by norm_num) (by norm_num)⟩
  have h := Real.log_nonneg (by norm_num : (1 : ℝ) ≤ 10 / 1)
  linarith

lemma runSolver_primary {f : FirmFinancials} {pc : List (ℝ × ℝ)}
    (fc : List (ℝ × ℝ)) (reV : ℝ) {p : ℝ × ℝ}
    (hp : firstAccepted f pc = some p) :
    runSolver f pc fc reV = .ok (applyFloor f .primary reV p) := by
  unfold runSolver
  rw [hp]

lemma runSolver_fallback {f : FirmFinancials} {pc fc : List (ℝ × ℝ)}
    (reV : ℝ) {p : ℝ × ℝ} (hp : firstAccepted f pc = none)
    (hq : firstAccepted f fc = some p) :
    runSolver f pc fc reV = .ok (applyFloor f .fallback reV p) := by
  unfold runSolver
  rw [hp, hq]

lemma runSolver_error {f : FirmFinancials} {pc fc : List (ℝ × ℝ)}
    (reV : ℝ) (hp : firstAccepted f pc = none)
    (hq : firstAccepted f fc = none) :
    runSolver f pc fc reV =
      .error { best_residual := bestResidual f (pc ++ fc)
               seed_schedule := pc ++ fc } := by
  unfold runSolver
  rw [hp, hq]

lemma lt_of_equityValue_eq {Vr D r sigma_V T E : ℝ} (hD : 0 < D) (hE : 0 < E)
    (h : equityValue Vr D r sigma_V T = E) : E < Vr := by
  by_cases hVr : 0 ≤ Vr
  · have hlt := equityValue_lt_self (V := Vr) (D := D) r sigma_V T hVr hD
    rw [h] at hlt
    exact hlt
  · push_neg at hVr
    exfalso
    have h1 := normCdf_pos (d1 Vr D r sigma_V T)
    have h2 := normCdf_nonneg (d2 Vr D r sigma_V T)
    have h3 := Real.exp_pos (-(r * T))
    have hneg : equityValue Vr D r sigma_V T < 0 := by
      unfold equityValue
      nlinarith [mul_nonneg (mul_nonneg hD.le h3.le) h2,
        mul_neg_of_neg_of_pos hVr h1]
    rw [h] at hneg
    linarith

lemma applyFloor_spec {f : FirmFinancials} {p : ℝ × ℝ}
    (m : SolverMethod) (reV : ℝ) (hE : 0 < f.E) (hD : 0 < f.D)
    (hacc : accepts f p)
    (hre : 0.7 < f.D / (f.E + f.D) → p.2 < 0.15 →
      equityValue reV f.D f.r 0.15 f.T = f.E) :
    (applyFloor f m reV p).converged = true ∧
    (applyFloor f m reV p).leverage = f.D / (applyFloor f m reV p).V ∧
    0 < (applyFloor f m reV p).sigma_V ∧
    f.E < (applyFloor f m reV p).V ∧
    ((applyFloor f m reV p).sigma_V < f.sigma_E ∨
      (applyFloor f m reV p).sigma_V = 0.15) ∧
    (applyFloor f m reV p).method = m := by
  unfold applyFloor
  by_cases hc : 0.7 < f.D / (f.E + f.D) ∧ p.2 < 0.15
  · rw [if_pos hc]
    have hcontract := hre hc.1 hc.2
    exact ⟨rfl, rfl, by norm_num, lt_of_equityValue_eq hD hE hcontract,
      Or.inr rfl, rfl⟩
  · rw [if_neg hc]
    exact ⟨rfl, rfl, hacc.2.2.2.1, hacc.2.2.1, Or.inl hacc.2.2.2.2, rfl⟩

/-- C6: every `MertonSolution` produced by a successful solver run is marked
converged, carries the leverage `D/V` and a method tag that is one of the two
stages, and satisfies `V > E` and `0 < sigma_V`, with `sigma_V < sigma_E`
unless the §4.2 floor replaced it by `0.15` exactly (the floor's re-solved
`V` still satisfies `V > E` because it solves the equity-value equation). -/
theorem merton_solution_invariants
    (f : FirmFinancials) (pc fc : List (ℝ × ℝ)) (reV : ℝ) (sol : MertonSolution)
    (hE : 0 < f.E) (hD : 0 < f.D)
    (hre : (∃ p ∈ pc ++ fc, accepts f p ∧ p.2 < 0.15) →
      equityValue reV f.D f.r 0.15 f.T = f.E)
    (hrun : runSolver f pc fc reV = .ok sol) :
    sol.converged = true ∧
    sol.leverage = f.D / sol.V ∧
    0 < sol.sigma_V ∧
    f.E < sol.V ∧
    (sol.sigma_V < f.sigma_E ∨ sol.sigma_V = 0.15) ∧
    (sol.method = .primary ∨ sol.method = .fallback) := by
  cases hp : firstAccepted f pc with
  | some p =>
    obtain ⟨hacc, hmem⟩ := firstAccepted_some hp
    have heq := (runSolver_primary fc reV hp).symm.trans hrun
    have hsol : applyFloor f .primary reV p = sol := by
      injection heq
    have hspec := applyFloor_spec (f := f) .primary reV hE hD hacc
      (fun _ hσ => hre ⟨p, List.mem_append_left fc hmem, hacc, hσ⟩)
    rw [hsol] at hspec
    exact ⟨hspec.1, hspec.2.1, hspec.2.2.1, hspec.2.2.2.1, hspec.2.2.2.2.1,
      Or.inl hspec.2.2.2.2.2⟩
  | none =>
    cases hq : firstAccepted f fc with
    | some p =>
      obtain ⟨hacc, hmem⟩ := firstAccepted_some hq
      have heq := (runSolver_fallback reV hp hq).symm.trans hrun
      have hsol : applyFloor f .fallback reV p = sol := by
        injection heq
      have hspec := applyFloor_spec (f := f) .fallback reV hE hD hacc
        (fun _ hσ => hre ⟨p, List.mem_append_right pc hmem, hacc, hσ⟩)
      rw [hsol] at hspec
      exact ⟨hspec.1, hspec.2.1, hspec.2.2.1, hspec.2.2.2.1, hspec.2.2.2.2.1,
        Or.inr hspec.2.2.2.2.2⟩
    | none =>
      have heq := (runSolver_error reV hp hq).symm.trans hrun
      exact absurd heq (by simp)

/-- C4: whenever the firm is highly levered (`D/(E+D) > 0.7`) and the
unconstrained solve accepted a candidate with `sigma_V < 0.15`, the solver's
final solution clamps `sigma_V` to `0.15` exactly and takes as `V` the value
re-solving the equity-value equation `R1 = 0` at the floored volatility, so
`equityValue(V, D, r, 0.15, T) = E`. -/
theorem volatility_floor_spec
    (f : FirmFinancials) (pc fc : List (ℝ × ℝ)) (reV : ℝ) (p : ℝ × ℝ)
    (hlev : 0.7 < f.D / (f.E + f.D))
    (hp : firstAccepted f pc = some p) (hσ : p.2 < 0.15)
    (hre : equityValue reV f.D f.r 0.15 f.T = f.E) :
    ∃ sol, runSolver f pc fc reV = .ok sol ∧ sol.sigma_V = 0.15 ∧
      sol.V = reV ∧ equityValue sol.V f.D f.r 0.15 f.T = f.E := by
  refine ⟨applyFloor f .primary reV p, runSolver_primary fc reV hp, ?_, ?_, ?_⟩
  · unfold applyFloor
    rw [if_pos ⟨hlev, hσ⟩]
  · unfold applyFloor
    rw [if_pos ⟨hlev, hσ⟩]
  · unfold applyFloor
    rw [if_pos ⟨hlev, hσ⟩]
    exact hre

lemma equityValue_pos_of_debt_lt {V D sigma_V T : ℝ} (r : ℝ) (hV : 0 ≤ V)
    (hσ : 0 ≤ sigma_V) (h : D * Real.exp (-(r * T)) < V) :
    0 < equityValue V D r sigma_V T :=
  lt_of_lt_of_le (mul_pos (by linarith) (normCdf_pos (d2 V D r sigma_V T)))
    (equityValue_ge_lower r hV hσ)

lemma accepts_self_forward {V sigma_V D r T : ℝ} (hD : 0 < D) (hσ : 0 < sigma_V)
    (hV : 0 ≤ V) (hE : 0 < equityValue V D r sigma_V T) :
    accepts
      { E := equityValue V D r sigma_V T, D := D,
        sigma_E := equityVolImplied V D r sigma_V T (equityValue V D r sigma_V T),
        r := r, T := T } (V, sigma_V) := by
  have hEne : equityValue V D r sigma_V T ≠ 0 := ne_of_gt hE
  have htol : (0 : ℝ) ≤ solverTol * equityValue V D r sigma_V T := by
    unfold solverTol
    positivity
  refine ⟨?_, ?_, ?_, hσ, ?_⟩
  · have h0 : equityValue V D r sigma_V T - equityValue V D r sigma_V T = 0 :=
      sub_self _
    show |equityValue V D r sigma_V T - equityValue V D r sigma_V T| ≤ _
    rw [h0, abs_zero]
    exact htol
  · have h0 : sigma_V * V * normCdf (d1 V D r sigma_V T) -
        sigma_V * V * normCdf (d1 V D r sigma_V T) /
          equityValue V D r sigma_V T * equityValue V D r sigma_V T = 0 := by
      field_simp
    show |sigma_V * V * normCdf (d1 V D r sigma_V T) -
        sigma_V * V * normCdf (d1 V D r sigma_V T) /
          equityValue V D r sigma_V T * equityValue V D r sigma_V T| ≤ _
    rw [h0, abs_zero]
    exact htol
  · exact equityValue_lt_self r sigma_V T hV hD
  · show sigma_V <
      sigma_V * V * normCdf (d1 V D r sigma_V T) / equityValue V D r sigma_V T
    rw [lt_div_iff₀ hE]
    have hgap : equityValue V D r sigma_V T < V * normCdf (d1 V D r sigma_V T) := by
      have h2 := normCdf_pos (d2 V D r sigma_V T)
      have h3 := Real.exp_pos (-(r * T))
      have hsub : 0 < D * Real.exp (-(r * T)) * normCdf (d2 V D r sigma_V T) :=
        mul_pos (mul_pos hD h3) h2
      unfold equityValue
      linarith
    calc sigma_V * equityValue V D r sigma_V T
        < sigma_V * (V * normCdf (d1 V D r sigma_V T)) :=
          mul_lt_mul_of_pos_left hgap hσ
      _ = sigma_V * V * normCdf (d1 V D r sigma_V T) := by ring

/-- Concrete firm for the C6 witness, self-consistently generated from the
forward equations at `V = 2, sigma_V = 1, D = 1, r = 0, T = 1`. -/
noncomputable def fW6 : FirmFinancials :=
  { E := equityValue 2 1 0 1 1, D := 1,
    sigma_E := equityVolImplied 2 1 0 1 1 (equityValue 2 1 0 1 1),
    r := 0, T := 1 }

lemma fW6_E_pos : 0 < fW6.E := by
  show 0 < equityValue 2 1 0 1 1
  refine equityValue_pos_of_debt_lt 0 (by norm_num) (by norm_num) ?_
  norm_num [Real.exp_zero]

lemma fW6_accepts : accepts fW6 (2, 1) :=
  accepts_self_forward (by norm_num) (by norm_num) (by norm_num) fW6_E_pos

lemma fW6_firstAccepted :
    firstAccepted fW6 ([((2 : ℝ), (1 : ℝ))]) = some (2, 1) := by
  classical
  show (if accepts fW6 (2, 1) then some ((2 : ℝ), (1 : ℝ))
    else firstAccepted fW6 ([] : List (ℝ × ℝ))) = some (2, 1)
  rw [if_pos fW6_accepts]

/-- Witness for C6: a concrete successful run of the solver skeleton. -/
theorem merton_solution_invariants_witness :
    ∃ sol, runSolver fW6 ([((2 : ℝ), (1 : ℝ))]) ([] : List (ℝ × ℝ)) 1 =
        .ok sol ∧
      sol.converged = true ∧ sol.leverage = fW6.D / sol.V ∧
      0 < sol.sigma_V ∧ fW6.E < sol.V ∧
      (sol.sigma_V < fW6.sigma_E ∨ sol.sigma_V = 0.15) := by
  have hrun : runSolver fW6 ([((2 : ℝ), (1 : ℝ))]) ([] : List (ℝ × ℝ)) 1 =
      .ok (applyFloor fW6 .primary 1 (2, 1)) :=
    runSolver_primary ([] : List (ℝ × ℝ)) 1 fW6_firstAccepted
  have hre : (∃ p ∈ ([((2 : ℝ), (1 : ℝ))]) ++ ([] : List (ℝ × ℝ)),
      accepts fW6 p ∧ p.2 < 0.15) →
      equityValue 1 fW6.D fW6.r 0.15 fW6.T = fW6.E := by
    rintro ⟨p, hmem, -, hσp⟩
    simp only [List.append_nil, List.mem_singleton] at hmem
    rw [hmem] at hσp
    norm_num at hσp
  have h := merton_solution_invariants fW6 ([((2 : ℝ), (1 : ℝ))])
    ([] : List (ℝ × ℝ)) 1 (applyFloor fW6 .primary 1 (2, 1))
    fW6_E_pos (by norm_num [fW6]) hre hrun
  exact ⟨applyFloor fW6 .primary 1 (2, 1), hrun, h.1, h.2.1, h.2.2.1,
    h.2.2.2.1, h.2.2.2.2.1⟩

lemma exp_four_gt_fifty : (50 : ℝ) < Real.exp 4 := by
  have h1 : (2.7 : ℝ) < Real.exp 1 := by linarith [Real.exp_one_gt_d9]
  have h4 : ((2.7 : ℝ)) ^ (4 : ℕ) < Real.exp 1 ^ (4 : ℕ) :=
    pow_lt_pow_left₀ h1 (by norm_num) (by norm_num)
  have he : Real.exp 1 ^ (4 : ℕ) = Real.exp 4 := by
    rw [Real.exp_one_pow]
    norm_num
  calc (50 : ℝ) < 2.7 ^ (4 : ℕ) := by norm_num
    _ < Real.exp 1 ^ (4 : ℕ) := h4
    _ = Real.exp 4 := he

lemma debt_term_lt_two : (100 : ℝ) * Real.exp (-(4 * 1)) < 2 := by
  have hpos := Real.exp_pos (4 : ℝ)
  have h : Real.exp (-(4 * 1) : ℝ) = (Real.exp 4)⁻¹ := by
    norm_num [Real.exp_neg]
  rw [h, mul_inv_lt_iff₀ hpos]
  nlinarith [exp_four_gt_fifty]

/-- Concrete highly-levered firm for the C4 witness, self-consistently
generated from the forward equations at
`V = 2, sigma_V = 0.1, D = 100, r = 4, T = 1`. -/
noncomputable def fW4 : FirmFinancials :=
  { E := equityValue 2 100 4 (1 / 10) 1, D := 100,
    sigma_E := equityVolImplied 2 100 4 (1 / 10) 1 (equityValue 2 100 4 (1 / 10) 1),
    r := 4, T := 1 }

lemma fW4_E_pos : 0 < fW4.E := by
  show 0 < equityValue 2 100 4 (1 / 10) 1
  exact equityValue_pos_of_debt_lt 4 (by norm_num) (by norm_num) debt_term_lt_two

lemma fW4_E_le_two : fW4.E ≤ 2 := by
  show equityValue 2 100 4 (1 / 10) 1 ≤ 2
  exact equityValue_le_self 4 (1 / 10) 1 (by norm_num) (by norm_num)

lemma fW4_lev : (0.7 : ℝ) < fW4.D / (fW4.E + fW4.D) := by
  have h1 := fW4_E_pos
  have h2 := fW4_E_le_two
  have hden : (0 : ℝ) < fW4.E + fW4.D := by
    have : (fW4.D : ℝ) = 100 := rfl
    linarith [h1, this ▸ (le_refl (fW4.E + fW4.D))]
  rw [lt_div_iff₀ hden]
  have hD : (fW4.D : ℝ) = 100 := rfl
  rw [hD] at hden ⊢
  linarith

lemma fW4_accepts : accepts fW4 (2, 1 / 10) :=
  accepts_self_forward (by norm_num) (by norm_num) (by norm_num) fW4_E_pos

lemma fW4_firstAccepted :
    firstAccepted fW4 ([((2 : ℝ), ((1 : ℝ) / 10))]) = some (2, 1 / 10) := by
  classical
  show (if accepts fW4 (2, 1 / 10) then some ((2 : ℝ), ((1 : ℝ) / 10))
    else firstAccepted fW4 ([] : List (ℝ × ℝ))) = some (2, 1 / 10)
  rw [if_pos fW4_accepts]

/-- Witness for C4: a concrete highly-levered input whose accepted candidate
has `sigma_V = 0.1 < 0.15`; the floored run returns `sigma_V = 0.15` with the
re-solved `V` satisfying the equity-value equation. -/
theorem volatility_floor_spec_witness :
    ∃ reV sol,
      runSolver fW4 ([((2 : ℝ), ((1 : ℝ) / 10))]) ([] : List (ℝ × ℝ)) reV =
        .ok sol ∧
      sol.sigma_V = 0.15 ∧ equityValue sol.V fW4.D fW4.r 0.15 fW4.T = fW4.E := by
  obtain ⟨Vr, hVrpos, hVr⟩ := exists_equityValue_eq 100 4 0.15 1 fW4.E
    (by norm_num) (by norm_num) (by norm_num) fW4_E_pos
  have hVr4 : equityValue Vr fW4.D fW4.r 0.15 fW4.T = fW4.E := hVr
  obtain ⟨sol, h1, h2, h3, h4⟩ := volatility_floor_spec fW4
    ([((2 : ℝ), ((1 : ℝ) / 10))]) ([] : List (ℝ × ℝ)) Vr (2, 1 / 10)
    fW4_lev fW4_firstAccepted (by norm_num) hVr4
  exact ⟨Vr, sol, h1, h2, h4⟩
